import Mathlib

/-!
Verification of the expo-heartbeat core: the signal-processing utilities
(`src/utils/signal-processing.ts`) and the `HeartbeatDetector` class.

Modelling conventions.  JavaScript numbers are modelled as exact rationals
(`ℚ`); timestamps (millisecond counts from `Date.now()`) as integers (`ℤ`).
`Math.sqrt` has no exact rational counterpart, so every definition that
reaches `normalize` is parametrised by an arbitrary function
`sqrt : ℚ → ℚ` standing for the square-root routine; no theorem below
depends on its values.  Array reads `a[i]` are modelled with `List.getD`
(default 0); every read performed by the code on the paths analysed here is
in bounds, as proved in the peak-index bounds theorem.
-/

namespace ExpoHeartbeat

/-- Moving average filter of `signal-processing.ts`: at position `i` the mean
of the window `data[max 0 (i-windowSize+1) .. i]` (causal, shrinking at the
start).  `lo = i + 1 - windowSize` in `ℕ` equals `max 0 (i - windowSize + 1)`. -/
def movingAverage (data : List ℚ) (windowSize : ℕ) : List ℚ :=
  (List.range data.length).map fun i =>
    let lo := i + 1 - windowSize
    let window := List.range' lo (i + 1 - lo)
    let sum : ℚ := (window.map fun j => data.getD j 0).sum
    let count : ℚ := (window.length : ℚ)
    sum / count

/-- Linear detrending of `signal-processing.ts`: ordinary-least-squares fit
of value against index, subtracted pointwise; series of length ≤ 1 are
returned unchanged. -/
def detrend (data : List ℚ) : List ℚ :=
  if data.length ≤ 1 then data
  else
    let n : ℚ := (data.length : ℚ)
    let sumX : ℚ := ((List.range data.length).map fun (i : ℕ) => (i : ℚ)).sum
    let sumY : ℚ := data.sum
    let sumXY : ℚ := ((List.range data.length).map fun (i : ℕ) => (i : ℚ) * data.getD i 0).sum
    let sumXX : ℚ := ((List.range data.length).map fun (i : ℕ) => (i : ℚ) * (i : ℚ)).sum
    let slope := (n * sumXY - sumX * sumY) / (n * sumXX - sumX * sumX)
    let intercept := (sumY - slope * sumX) / n
    (List.range data.length).map fun i => data.getD i 0 - (slope * (i : ℚ) + intercept)

/-- Z-score normalization of `signal-processing.ts`: subtract the mean and
divide by the population standard deviation; a constant series (standard
deviation 0) maps to all zeros, the empty series to the empty series.
`sqrt` stands for `Math.sqrt`. -/
def normalize (sqrt : ℚ → ℚ) (data : List ℚ) : List ℚ :=
  if data.length = 0 then []
  else
    let mean : ℚ := data.sum / (data.length : ℚ)
    let variance : ℚ := ((data.map fun v => (v - mean) ^ 2).sum) / (data.length : ℚ)
    let stdDev : ℚ := sqrt variance
    if stdDev = 0 then data.map fun _ => 0
    else data.map fun v => (v - mean) / stdDev

/-- Minimum-height test of `findPeaks`: `minHeight === undefined || minHeight < data[i]`. -/
def passesMinHeight (minHeight : Option ℚ) (v : ℚ) : Bool :=
  match minHeight with
  | none => true
  | some h => decide (h < v)

/-- One iteration of the `findPeaks` loop at index `i`: a strict local
maximum passing the height test is appended when no distance constraint
binds; a candidate inside the exclusion zone of the last accepted peak
replaces it when strictly taller and is dropped otherwise. -/
def findPeaksStep (data : List ℚ) (minHeight : Option ℚ) (minDistance : Option ℚ)
    (peaks : List ℕ) (i : ℕ) : List ℕ :=
  if data.getD (i - 1) 0 < data.getD i 0 ∧ data.getD (i + 1) 0 < data.getD i 0 then
    if passesMinHeight minHeight (data.getD i 0) then
      match minDistance, peaks.getLast? with
      | some d, some lastPeak =>
        if d ≤ (i : ℚ) - (lastPeak : ℚ) then peaks ++ [i]
        else if data.getD lastPeak 0 < data.getD i 0 then peaks.dropLast ++ [i]
        else peaks
      | _, _ => peaks ++ [i]
    else peaks
  else peaks

/-- Peak finder of `signal-processing.ts`: scans indices `1 .. length - 2`
in order, accumulating accepted peak indices with `findPeaksStep`; series
shorter than 3 yield no peaks. -/
def findPeaks (data : List ℚ) (minHeight : Option ℚ) (minDistance : Option ℚ) : List ℕ :=
  if data.length < 3 then []
  else (List.range' 1 (data.length - 2)).foldl (findPeaksStep data minHeight minDistance) []

/-- Band-pass filter of `signal-processing.ts`: a lagged-difference high-pass
stage (the first `lowCutSize` elements pass through unmodified) followed by
a moving-average low-pass stage. -/
def bandpassFilter (data : List ℚ) (lowCutSize highCutSize : ℕ) : List ℚ :=
  let highPassResult := (List.range data.length).map fun i =>
    if i < lowCutSize then data.getD i 0 else data.getD i 0 - data.getD (i - lowCutSize) 0
  movingAverage highPassResult highCutSize

theorem movingAverage_length (data : List ℚ) (w : ℕ) :
    (movingAverage data w).length = data.length := by
  simp [movingAverage]

theorem detrend_length (data : List ℚ) : (detrend data).length = data.length := by
  unfold detrend
  split <;> simp

theorem normalize_length (sqrt : ℚ → ℚ) (data : List ℚ) :
    (normalize sqrt data).length = data.length := by
  unfold normalize
  split
  · simp_all
  · simp only []
    split <;> simp

theorem bandpassFilter_length (data : List ℚ) (lo hi : ℕ) :
    (bandpassFilter data lo hi).length = data.length := by
  simp [bandpassFilter, movingAverage_length]

/-- Camera frame data (`FrameData` in the detector module).  The `Uint8Array`
pixel buffer is modelled as a total byte lookup; the code only reads indices
inside a well-formed RGBA buffer. -/
structure FrameData where
  width : ℕ
  height : ℕ
  data : ℕ → ℕ

/-- State of a `HeartbeatDetector` instance: the sample buffer (red-channel
values plus parallel timestamps), the sticky BPM estimate, and the single
beat-callback slot.  The callback is an opaque value of type `κ`; the step
functions report how often it would have been invoked. -/
structure DetectorState (κ : Type) where
  frameBuffer : List ℚ
  timestamps : List ℤ
  lastBpm : Option ℚ
  onPeakDetectedCallback : Option κ

namespace HeartbeatDetector

/-- Minimum number of buffered frames required before any processing runs. -/
def minFramesRequired : ℕ := 100

/-- Retention window for buffered samples, in milliseconds. -/
def maxBufferTimeMs : ℤ := 10000

/-- Window size of the moving-average stage of the pipeline. -/
def movingAverageWindow : ℕ := 5

/-- Minimum distance (in frames) between accepted peaks. -/
def minPeakDistance : ℚ := 10

/-- Lower bound of the accepted BPM range. -/
def minValidBpm : ℚ := 40

/-- Upper bound of the accepted BPM range. -/
def maxValidBpm : ℚ := 200

/-- Field initial values of a freshly constructed `HeartbeatDetector`. -/
def initState (κ : Type) : DetectorState κ :=
  { frameBuffer := [], timestamps := [], lastBpm := none, onPeakDetectedCallback := none }

/-- The `getBPM` accessor: the sticky estimate, absent until first set. -/
def getBPM (st : DetectorState κ) : Option ℚ := st.lastBpm

/-- The `reset` method: clears both buffer sequences and the BPM estimate;
the callback slot is not touched. -/
def reset (st : DetectorState κ) : DetectorState κ :=
  { st with frameBuffer := [], timestamps := [], lastBpm := none }

/-- The `setOnPeakDetectedCallback` method: replaces the single callback slot. -/
def setOnPeakDetectedCallback (st : DetectorState κ) (callback : κ) : DetectorState κ :=
  { st with onPeakDetectedCallback := some callback }

/-- The `extractRedChannelAverage` method: mean red-channel byte over the
centre region (middle 50 percent in each axis) of an RGBA frame.
`⌊width * 0.25⌋ = width / 4` and `⌊width * 0.75⌋ = 3 * width / 4` hold
exactly for the sizes involved. -/
def extractRedChannelAverage (frameData : FrameData) : ℚ :=
  let startX := frameData.width / 4
  let endX := 3 * frameData.width / 4
  let startY := frameData.height / 4
  let endY := 3 * frameData.height / 4
  let xs := List.range' startX (endX - startX)
  let ys := List.range' startY (endY - startY)
  let redSum : ℚ :=
    (ys.map fun y => (xs.map fun x => (frameData.data ((y * frameData.width + x) * 4) : ℚ)).sum).sum
  let pixelCount : ℕ := ys.length * xs.length
  if 0 < pixelCount then redSum / (pixelCount : ℚ) else 0

/-- The `manageBufferSize` method: while the oldest timestamp is more than
`maxBufferTimeMs` behind `currentTime`, shift the oldest entry off the front
of both sequences. -/
def manageBufferSize (currentTime : ℤ) : List ℚ → List ℤ → List ℚ × List ℤ
  | buf, [] => (buf, [])
  | buf, t0 :: rest =>
    if maxBufferTimeMs < currentTime - t0 then manageBufferSize currentTime buf.tail rest
    else (buf, t0 :: rest)

/-- The loop body of `calculateBPM`: successive inter-peak time differences
`timestamps[peaks[i]] - timestamps[peaks[i-1]]`, keeping only the strictly
positive ones. -/
def peakTimeDiffs (timestamps : List ℤ) : List ℕ → List ℤ
  | p0 :: p1 :: rest =>
    let timeDiff := timestamps.getD p1 0 - timestamps.getD p0 0
    (if 0 < timeDiff then [timeDiff] else []) ++ peakTimeDiffs timestamps (p1 :: rest)
  | _ => []

/-- The `calculateBPM` method: 60000 divided by the mean positive inter-peak
time difference, or 0 when no positive difference exists. -/
def calculateBPM (timestamps : List ℤ) (peakIndices : List ℕ) : ℚ :=
  let timeDiffs := peakTimeDiffs timestamps peakIndices
  if timeDiffs.length = 0 then 0
  else
    let avgTimeBetweenPeaks : ℚ := ((timeDiffs.map fun (d : ℤ) => (d : ℚ)).sum) / (timeDiffs.length : ℚ)
    60000 / avgTimeBetweenPeaks

/-- The `isValidBpm` range test: `minValidBpm <= bpm && bpm <= maxValidBpm`. -/
def isValidBpm (bpm : ℚ) : Bool :=
  decide (minValidBpm ≤ bpm) && decide (bpm ≤ maxValidBpm)

/-- The `processSignal` method: moving average (window 5), detrend,
band-pass (10/3), normalize, in that fixed order. -/
def processSignal (sqrt : ℚ → ℚ) (buffer : List ℚ) : List ℚ :=
  normalize sqrt (bandpassFilter (detrend (movingAverage buffer movingAverageWindow)) 10 3)

/-- The `processBufferedData` method.  Returns the updated state together
with the number of beat-callback invocations performed (0 or 1). -/
def processBufferedData (sqrt : ℚ → ℚ) (st : DetectorState κ) : DetectorState κ × ℕ :=
  if st.frameBuffer.length < minFramesRequired then (st, 0)
  else
    let processedData := processSignal sqrt st.frameBuffer
    let peakIndices := findPeaks processedData none (some minPeakDistance)
    if 2 ≤ peakIndices.length then
      let calculatedBpm := calculateBPM st.timestamps peakIndices
      let st1 := if isValidBpm calculatedBpm then { st with lastBpm := some calculatedBpm } else st
      let lastPeakIndex := peakIndices.getD (peakIndices.length - 1) 0
      let isRecentPeak := (processedData.length : ℤ) - (lastPeakIndex : ℤ) < 5
      if st.onPeakDetectedCallback.isSome ∧ isRecentPeak then (st1, 1) else (st1, 0)
    else (st, 0)

/-- The `processFrame` method: extract the red average, append it with its
timestamp, evict stale entries, and run the detection pipeline once at least
`minFramesRequired` samples are buffered.  The two `Date.now()` reads inside
one call are modelled as the single input `t`, which is both the appended
timestamp and the eviction reference. -/
def processFrame (sqrt : ℚ → ℚ) (st : DetectorState κ) (frameData : FrameData) (t : ℤ) :
    DetectorState κ × ℕ :=
  let redAverage := extractRedChannelAverage frameData
  let p := manageBufferSize t (st.frameBuffer ++ [redAverage]) (st.timestamps ++ [t])
  let st1 : DetectorState κ := { st with frameBuffer := p.1, timestamps := p.2 }
  if minFramesRequired ≤ st1.frameBuffer.length then processBufferedData sqrt st1
  else (st1, 0)

/-- Sequential processing of a list of frames (each a frame paired with its
`Date.now()` timestamp), discarding the per-call invocation counts. -/
def runFrames (sqrt : ℚ → ℚ) (st : DetectorState κ) (inputs : List (FrameData × ℤ)) :
    DetectorState κ :=
  inputs.foldl (fun s p => (processFrame sqrt s p.1 p.2).1) st

theorem processSignal_length (sqrt : ℚ → ℚ) (buffer : List ℚ) :
    (processSignal sqrt buffer).length = buffer.length := by
  simp [processSignal, normalize_length, bandpassFilter_length, detrend_length,
    movingAverage_length]

end HeartbeatDetector

theorem sum_range_cast (n : ℕ) :
    ((List.range n).map fun (i : ℕ) => (i : ℚ)).sum = n * (n - 1) / 2 := by
  induction n with
  | zero => simp
  | succ k ih =>
    rw [List.range_succ, List.map_append, List.sum_append, ih]
    simp only [List.map_cons, List.map_nil, List.sum_cons, List.sum_nil, add_zero]
    push_cast
    ring

theorem sum_range_sq_cast (n : ℕ) :
    ((List.range n).map fun (i : ℕ) => (i : ℚ) * (i : ℚ)).sum = n * (n - 1) * (2 * n - 1) / 6 := by
  induction n with
  | zero => simp
  | succ k ih =>
    rw [List.range_succ, List.map_append, List.sum_append, ih]
    simp only [List.map_cons, List.map_nil, List.sum_cons, List.sum_nil, add_zero]
    push_cast
    ring

theorem sum_range_affine (a b : ℚ) (n : ℕ) :
    ((List.range n).map fun (i : ℕ) => a * (i : ℚ) + b).sum = a * (n * (n - 1) / 2) + n * b := by
  induction n with
  | zero => simp
  | succ k ih =>
    rw [List.range_succ, List.map_append, List.sum_append, ih]
    simp only [List.map_cons, List.map_nil, List.sum_cons, List.sum_nil, add_zero]
    push_cast
    ring

theorem sum_range_mul_affine (a b : ℚ) (n : ℕ) :
    ((List.range n).map fun (i : ℕ) => (i : ℚ) * (a * (i : ℚ) + b)).sum
      = a * (n * (n - 1) * (2 * n - 1) / 6) + b * (n * (n - 1) / 2) := by
  induction n with
  | zero => simp
  | succ k ih =>
    rw [List.range_succ, List.map_append, List.sum_append, ih]
    simp only [List.map_cons, List.map_nil, List.sum_cons, List.sum_nil, add_zero]
    push_cast
    ring

theorem getD_map_range (f : ℕ → ℚ) {n i : ℕ} (h : i < n) :
    (((List.range n).map f).getD i 0) = f i := by
  rw [List.getD_eq_getElem?_getD, List.getElem?_map, List.getElem?_range h]
  rfl

theorem detrend_affine (n : ℕ) (a b : ℚ) (h : 2 ≤ n) :
    detrend ((List.range n).map fun (i : ℕ) => a * (i : ℚ) + b) = List.replicate n 0 := by
  have hlen : ((List.range n).map fun (i : ℕ) => a * (i : ℚ) + b).length = n := by simp
  have hXYmap :
      ((List.range n).map fun (i : ℕ) =>
          (i : ℚ) * (((List.range n).map fun (j : ℕ) => a * (j : ℚ) + b).getD i 0))
        = (List.range n).map fun (i : ℕ) => (i : ℚ) * (a * (i : ℚ) + b) :=
    List.map_congr_left fun i hi => by rw [getD_map_range _ (List.mem_range.mp hi)]
  have h2 : (2 : ℚ) ≤ (n : ℚ) := by exact_mod_cast h
  have hn0 : (n : ℚ) ≠ 0 := by linarith
  have hden :
      (n : ℚ) * ((n : ℚ) * ((n : ℚ) - 1) * (2 * (n : ℚ) - 1) / 6)
        - ((n : ℚ) * ((n : ℚ) - 1) / 2) * ((n : ℚ) * ((n : ℚ) - 1) / 2) ≠ 0 := by
    have heq :
        (n : ℚ) * ((n : ℚ) * ((n : ℚ) - 1) * (2 * (n : ℚ) - 1) / 6)
          - ((n : ℚ) * ((n : ℚ) - 1) / 2) * ((n : ℚ) * ((n : ℚ) - 1) / 2)
          = (n : ℚ) ^ 2 * ((n : ℚ) - 1) * ((n : ℚ) + 1) / 12 := by ring
    rw [heq]
    have hp1 : (0 : ℚ) < (n : ℚ) ^ 2 := by positivity
    have hp2 : (0 : ℚ) < (n : ℚ) - 1 := by linarith
    have hp3 : (0 : ℚ) < (n : ℚ) + 1 := by linarith
    have := mul_pos (mul_pos hp1 hp2) hp3
    have : (0 : ℚ) < (n : ℚ) ^ 2 * ((n : ℚ) - 1) * ((n : ℚ) + 1) / 12 := by linarith
    exact ne_of_gt this
  unfold detrend
  rw [hlen, if_neg (by omega)]
  simp only []
  rw [hXYmap, sum_range_cast, sum_range_sq_cast, sum_range_affine, sum_range_mul_affine]
  have hslope :
      ((n : ℚ) * (a * ((n : ℚ) * ((n : ℚ) - 1) * (2 * (n : ℚ) - 1) / 6)
            + b * ((n : ℚ) * ((n : ℚ) - 1) / 2))
          - (n : ℚ) * ((n : ℚ) - 1) / 2 * (a * ((n : ℚ) * ((n : ℚ) - 1) / 2) + (n : ℚ) * b))
        / ((n : ℚ) * ((n : ℚ) * ((n : ℚ) - 1) * (2 * (n : ℚ) - 1) / 6)
          - (n : ℚ) * ((n : ℚ) - 1) / 2 * ((n : ℚ) * ((n : ℚ) - 1) / 2)) = a := by
    rw [div_eq_iff (by exact_mod_cast hden)]
    ring
  rw [hslope]
  have hint :
      (a * ((n : ℚ) * ((n : ℚ) - 1) / 2) + (n : ℚ) * b - a * ((n : ℚ) * ((n : ℚ) - 1) / 2))
        / (n : ℚ) = b := by
    rw [div_eq_iff hn0]
    ring
  rw [hint]
  rw [List.eq_replicate_iff]
  refine ⟨by simp, ?_⟩
  intro v hv
  obtain ⟨i, hi, rfl⟩ := List.mem_map.mp hv
  rw [getD_map_range _ (List.mem_range.mp hi)]
  ring

theorem foldl_invariant {α β : Type} (f : β → α → β) (P : β → Prop) :
    ∀ (l : List α) (b : β), P b → (∀ b' a, a ∈ l → P b' → P (f b' a)) →
      P (List.foldl f b l) := by
  intro l
  induction l with
  | nil => intro b hb _; exact hb
  | cons x xs ih =>
    intro b hb hstep
    exact ih (f b x) (hstep b x (by simp) hb)
      fun b' a ha hb' => hstep b' a (by simp [ha]) hb'

theorem findPeaksStep_none_none (data : List ℚ) (peaks : List ℕ) (i : ℕ) :
    findPeaksStep data none none peaks i =
      if data.getD (i - 1) 0 < data.getD i 0 ∧ data.getD (i + 1) 0 < data.getD i 0 then
        peaks ++ [i]
      else peaks := by
  unfold findPeaksStep passesMinHeight
  split
  · simp
  · rfl

theorem foldl_filter_append (p : ℕ → Prop) [DecidablePred p] :
    ∀ (l acc : List ℕ),
      l.foldl (fun acc i => if p i then acc ++ [i] else acc) acc
        = acc ++ l.filter fun i => decide (p i) := by
  intro l
  induction l with
  | nil => intro acc; simp
  | cons x xs ih =>
    intro acc
    rw [List.foldl_cons, List.filter_cons]
    by_cases hx : p x
    · rw [if_pos hx, ih, if_pos (by simpa using hx), List.append_assoc]
      rfl
    · rw [if_neg hx, ih, if_neg (by simpa using hx)]

theorem findPeaks_none_none_mem (data : List ℚ) (i : ℕ) :
    i ∈ findPeaks data none none ↔
      1 ≤ i ∧ i + 1 < data.length ∧
        data.getD (i - 1) 0 < data.getD i 0 ∧ data.getD (i + 1) 0 < data.getD i 0 := by
  unfold findPeaks
  split
  · rename_i hlt
    simp only [List.not_mem_nil, false_iff]
    rintro ⟨h1, h2, -⟩
    omega
  · rename_i hge
    have hstep : findPeaksStep data none none = fun peaks i =>
        if data.getD (i - 1) 0 < data.getD i 0 ∧ data.getD (i + 1) 0 < data.getD i 0 then
          peaks ++ [i]
        else peaks :=
      funext fun peaks => funext fun i => findPeaksStep_none_none data peaks i
    rw [hstep, foldl_filter_append, List.nil_append, List.mem_filter, List.mem_range'_1]
    constructor
    · rintro ⟨⟨hi1, hi2⟩, hp⟩
      have hp' := of_decide_eq_true hp
      exact ⟨hi1, by omega, hp'⟩
    · rintro ⟨h1, h2, h3⟩
      exact ⟨⟨h1, by omega⟩, decide_eq_true h3⟩

theorem findPeaks_minHeight_mem (data : List ℚ) (h : ℚ) (md : Option ℚ) (i : ℕ)
    (hi : i ∈ findPeaks data (some h) md) : h < data.getD i 0 := by
  unfold findPeaks at hi
  split at hi
  · simp at hi
  · refine foldl_invariant (findPeaksStep data (some h) md)
      (fun acc => ∀ j ∈ acc, h < data.getD j 0) _ [] (by simp) ?_ i hi
    intro acc k _ hacc j hj
    unfold findPeaksStep at hj
    split at hj
    · split at hj
      · rename_i hheight
        have hh : h < data.getD k 0 := by
          simpa [passesMinHeight] using hheight
        revert hj
        split
        · split
          · intro hj
            rcases List.mem_append.mp hj with hja | hjk
            · exact hacc j hja
            · simp at hjk; subst hjk; exact hh
          · split
            · intro hj
              rcases List.mem_append.mp hj with hja | hjk
              · exact hacc j (List.dropLast_subset _ hja)
              · simp at hjk; subst hjk; exact hh
            · intro hj; exact hacc j hj
        · intro hj
          rcases List.mem_append.mp hj with hja | hjk
          · exact hacc j hja
          · simp at hjk; subst hjk; exact hh
      · exact hacc j hj
    · exact hacc j hj

theorem findPeaksStep_eq (data : List ℚ) (mh : Option ℚ) (md : Option ℚ)
    (acc : List ℕ) (i : ℕ) :
    findPeaksStep data mh md acc i = acc ∨
    (findPeaksStep data mh md acc i = acc ++ [i] ∧
      ∀ d, md = some d → ∀ lp ∈ acc.getLast?, d ≤ (i : ℚ) - (lp : ℚ)) ∨
    (∃ lp ∈ acc.getLast?, findPeaksStep data mh md acc i = acc.dropLast ++ [i]) := by
  unfold findPeaksStep
  split
  · split
    · cases md with
      | none =>
        right; left
        refine ⟨rfl, ?_⟩
        intro d hd
        exact absurd hd (by simp)
      | some d =>
        cases hlast : acc.getLast? with
        | none =>
          right; left
          refine ⟨rfl, ?_⟩
          intro d' _ lp hlp
          simp at hlp
        | some lp =>
          dsimp only
          split
          · rename_i hdle
            right; left
            refine ⟨rfl, ?_⟩
            intro d' hd' lp' hlp'
            injection hd' with h1
            subst h1
            simp at hlp'
            subst hlp'
            exact hdle
          · split
            · right; right
              exact ⟨lp, by simp, rfl⟩
            · left; rfl
    · left; rfl
  · left; rfl

theorem findPeaksStep_preserves (data : List ℚ) (mh md : Option ℚ) (acc : List ℕ) (x : ℕ)
    (hxb : 1 ≤ x ∧ x + 1 < data.length)
    (hord : ∀ j ∈ acc, j < x)
    (hchain : List.Chain' (· < ·) acc)
    (hbnd : ∀ j ∈ acc, 1 ≤ j ∧ j + 1 < data.length)
    (hdist : ∀ d : ℚ, md = some d →
      List.Chain' (fun (p q : ℕ) => d ≤ (q : ℚ) - (p : ℚ)) acc) :
    (∀ j ∈ findPeaksStep data mh md acc x, j ∈ acc ∨ j = x) ∧
    List.Chain' (· < ·) (findPeaksStep data mh md acc x) ∧
    (∀ j ∈ findPeaksStep data mh md acc x, 1 ≤ j ∧ j + 1 < data.length) ∧
    (∀ d : ℚ, md = some d →
      List.Chain' (fun (p q : ℕ) => d ≤ (q : ℚ) - (p : ℚ)) (findPeaksStep data mh md acc x)) := by
  rcases findPeaksStep_eq data mh md acc x with heq | ⟨heq, hpush⟩ | ⟨lp, hlp, heq⟩
  · rw [heq]
    exact ⟨fun j hj => Or.inl hj, hchain, hbnd, hdist⟩
  · rw [heq]
    refine ⟨?_, ?_, ?_, ?_⟩
    · intro j hj
      rcases List.mem_append.mp hj with hja | hjx
      · exact Or.inl hja
      · simp at hjx; exact Or.inr hjx
    · rw [List.chain'_append]
      refine ⟨hchain, List.chain'_singleton _, ?_⟩
      intro p hp q hq
      simp at hq; subst hq
      exact hord p (List.mem_of_mem_getLast? hp)
    · intro j hj
      rcases List.mem_append.mp hj with hja | hjx
      · exact hbnd j hja
      · simp at hjx; subst hjx; exact hxb
    · intro d hd
      rw [List.chain'_append]
      refine ⟨hdist d hd, List.chain'_singleton _, ?_⟩
      intro p hp q hq
      simp at hq; subst hq
      exact hpush d hd p hp
  · have hacc_decomp : acc.dropLast ++ [lp] = acc := List.dropLast_append_getLast? lp hlp
    have hchain2 := hchain
    rw [← hacc_decomp, List.chain'_append] at hchain2
    obtain ⟨hchainDL, -, -⟩ := hchain2
    rw [heq]
    refine ⟨?_, ?_, ?_, ?_⟩
    · intro j hj
      rcases List.mem_append.mp hj with hja | hjx
      · exact Or.inl (List.dropLast_subset _ hja)
      · simp at hjx; exact Or.inr hjx
    · rw [List.chain'_append]
      refine ⟨hchainDL, List.chain'_singleton _, ?_⟩
      intro p hp q hq
      simp at hq; subst hq
      exact hord p (List.dropLast_subset _ (List.mem_of_mem_getLast? hp))
    · intro j hj
      rcases List.mem_append.mp hj with hja | hjx
      · exact hbnd j (List.dropLast_subset _ hja)
      · simp at hjx; subst hjx; exact hxb
    · intro d hd
      have hdist2 := hdist d hd
      rw [← hacc_decomp, List.chain'_append] at hdist2
      obtain ⟨hdistDL, -, hreld⟩ := hdist2
      rw [List.chain'_append]
      refine ⟨hdistDL, List.chain'_singleton _, ?_⟩
      intro p hp q hq
      simp at hq; subst hq
      have h1 : d ≤ (lp : ℚ) - (p : ℚ) := hreld p hp lp (by simp)
      have h2 : lp < x := hord lp (List.mem_of_mem_getLast? hlp)
      have h3 : (lp : ℚ) + 1 ≤ (x : ℚ) := by exact_mod_cast h2
      linarith

theorem findPeaks_fold_inv (data : List ℚ) (mh md : Option ℚ) :
    ∀ (l acc : List ℕ),
      List.Pairwise (· < ·) l →
      (∀ k ∈ l, 1 ≤ k ∧ k + 1 < data.length) →
      (∀ j ∈ acc, ∀ k ∈ l, j < k) →
      List.Chain' (· < ·) acc →
      (∀ j ∈ acc, 1 ≤ j ∧ j + 1 < data.length) →
      (∀ d : ℚ, md = some d → List.Chain' (fun (p q : ℕ) => d ≤ (q : ℚ) - (p : ℚ)) acc) →
      List.Chain' (· < ·) (List.foldl (findPeaksStep data mh md) acc l) ∧
      (∀ j ∈ List.foldl (findPeaksStep data mh md) acc l, 1 ≤ j ∧ j + 1 < data.length) ∧
      (∀ d : ℚ, md = some d →
        List.Chain' (fun (p q : ℕ) => d ≤ (q : ℚ) - (p : ℚ))
          (List.foldl (findPeaksStep data mh md) acc l)) := by
  intro l
  induction l with
  | nil =>
    intro acc _ _ _ hchain hbnd hdist
    exact ⟨hchain, hbnd, hdist⟩
  | cons x xs ih =>
    intro acc hpair hbl hord hchain hbnd hdist
    obtain ⟨hxlt, hpairxs⟩ := List.pairwise_cons.mp hpair
    have hxb : 1 ≤ x ∧ x + 1 < data.length := hbl x (by simp)
    have hstep := findPeaksStep_preserves data mh md acc x hxb
      (fun j hj => hord j hj x (by simp)) hchain hbnd hdist
    obtain ⟨hmem', hchain', hbnd', hdist'⟩ := hstep
    rw [List.foldl_cons]
    refine ih (findPeaksStep data mh md acc x) hpairxs
      (fun k hk => hbl k (by simp [hk])) ?_ hchain' hbnd' hdist'
    intro j hj k hk
    rcases hmem' j hj with hja | hjx
    · exact hord j hja k (by simp [hk])
    · subst hjx; exact hxlt k hk

/-- C10: for every input series and parameters, the index list returned by
`findPeaks` is strictly increasing, every returned index lies in
`[1, length - 2]` (never the first or last position), with `minDistance d`
every two consecutive returned indices differ by at least `d` even after
tallest-wins replacement, and therefore every peak index is in bounds for
any timestamp sequence of the same length as the filtered signal. -/
theorem findPeaks_indices_safe (data : List ℚ) (mh md : Option ℚ) :
    List.Chain' (· < ·) (findPeaks data mh md) ∧
    (∀ i ∈ findPeaks data mh md, 1 ≤ i ∧ i + 1 < data.length) ∧
    (∀ d : ℚ, md = some d →
      List.Chain' (fun (p q : ℕ) => d ≤ (q : ℚ) - (p : ℚ)) (findPeaks data mh md)) ∧
    (∀ ts : List ℤ, ts.length = data.length → ∀ i ∈ findPeaks data mh md, i < ts.length) := by
  have hmain : List.Chain' (· < ·) (findPeaks data mh md) ∧
      (∀ i ∈ findPeaks data mh md, 1 ≤ i ∧ i + 1 < data.length) ∧
      (∀ d : ℚ, md = some d →
        List.Chain' (fun (p q : ℕ) => d ≤ (q : ℚ) - (p : ℚ)) (findPeaks data mh md)) := by
    unfold findPeaks
    split
    · exact ⟨List.chain'_nil, by simp, fun d _ => List.chain'_nil⟩
    · rename_i hge
      refine findPeaks_fold_inv data mh md (List.range' 1 (data.length - 2)) []
        (List.pairwise_lt_range' 1 (data.length - 2)) ?_ (by simp) List.chain'_nil
        (by simp) (fun d _ => List.chain'_nil)
      intro k hk
      rw [List.mem_range'_1] at hk
      omega
  obtain ⟨h1, h2, h3⟩ := hmain
  refine ⟨h1, h2, h3, ?_⟩
  intro ts hts i hi
  have := h2 i hi
  omega

theorem findPeaks_indices_safe_witness :
    List.Chain' (· < ·) (findPeaks ([1, 3, 1] : List ℚ) none (some 3)) ∧
    List.Chain' (fun (p q : ℕ) => (3 : ℚ) ≤ (q : ℚ) - (p : ℚ))
      (findPeaks ([1, 3, 1] : List ℚ) none (some 3)) ∧
    (∀ i ∈ findPeaks ([1, 3, 1] : List ℚ) none (some 3), i < ([5, 6, 7] : List ℤ).length) :=
  ⟨(findPeaks_indices_safe [1, 3, 1] none (some 3)).1,
   (findPeaks_indices_safe [1, 3, 1] none (some 3)).2.2.1 3 rfl,
   (findPeaks_indices_safe [1, 3, 1] none (some 3)).2.2.2 [5, 6, 7] (by decide)⟩

/-- C1: `findPeaks` with no constraints returns exactly the strict interior
local maxima (flat plateaus never qualify); every series of length < 3
yields the empty list; with `minHeight` every returned peak strictly
exceeds it; with `minDistance` a candidate inside the exclusion zone
replaces the last peak iff strictly taller, so on `[1,3,1,3,1]` with
`minDistance = 3` the tie is dropped and exactly the peak at index 1
remains, while on `[1,3,1,4,1]` the taller candidate at index 3 wins. -/
theorem findPeaks_spec :
    (∀ (data : List ℚ) (i : ℕ), i ∈ findPeaks data none none ↔
      1 ≤ i ∧ i + 1 < data.length ∧
        data.getD (i - 1) 0 < data.getD i 0 ∧ data.getD (i + 1) 0 < data.getD i 0) ∧
    (∀ (data : List ℚ) (mh md : Option ℚ), data.length < 3 → findPeaks data mh md = []) ∧
    (∀ (data : List ℚ) (h : ℚ) (md : Option ℚ) (i : ℕ),
      i ∈ findPeaks data (some h) md → h < data.getD i 0) ∧
    findPeaks ([1, 3, 1, 3, 1] : List ℚ) none (some 3) = [1] ∧
    findPeaks ([1, 3, 1, 4, 1] : List ℚ) none (some 3) = [3] := by
  refine ⟨findPeaks_none_none_mem, ?_, findPeaks_minHeight_mem,
    by norm_num [findPeaks, findPeaksStep, passesMinHeight, List.range'],
    by norm_num [findPeaks, findPeaksStep, passesMinHeight, List.range']⟩
  intro data mh md hlt
  unfold findPeaks
  rw [if_pos hlt]

theorem findPeaks_spec_witness :
    (([3, 7] : List ℚ).length < 3 ∧ findPeaks ([3, 7] : List ℚ) none none = []) ∧
    (1 ∈ findPeaks ([1, 3, 1] : List ℚ) (some 2) none ∧
      (2 : ℚ) < ([1, 3, 1] : List ℚ).getD 1 0) :=
  ⟨⟨by decide, findPeaks_spec.2.1 [3, 7] none none (by decide)⟩,
   ⟨by norm_num [findPeaks, findPeaksStep, passesMinHeight, List.range'],
    findPeaks_spec.2.2.1 [1, 3, 1] 2 none 1
      (by norm_num [findPeaks, findPeaksStep, passesMinHeight, List.range'])⟩⟩

/-- C9: under exact rational arithmetic, `detrend` maps every series of
length > 1 whose values are an affine function of the index
(`series[i] = a * i + b`) to the all-zero series of the same length,
because the least-squares fit recovers slope `a` and intercept `b`; a
series of length ≤ 1 is returned unchanged. -/
theorem detrend_affine_zero :
    (∀ (data : List ℚ) (a b : ℚ), 1 < data.length →
      (∀ i, i < data.length → data.getD i 0 = a * (i : ℚ) + b) →
      detrend data = List.replicate data.length 0) ∧
    (∀ data : List ℚ, data.length ≤ 1 → detrend data = data) := by
  constructor
  · intro data a b hlen haff
    have hdata : data = (List.range data.length).map fun (i : ℕ) => a * (i : ℚ) + b := by
      refine List.ext_getElem (by simp) ?_
      intro i h1 h2
      rw [List.getElem_map, List.getElem_range]
      rw [← List.getD_eq_getElem data 0 h1]
      exact haff i h1
    calc detrend data
        = detrend ((List.range data.length).map fun (i : ℕ) => a * (i : ℚ) + b) := by
          rw [← hdata]
      _ = List.replicate data.length 0 := detrend_affine data.length a b hlen
  · intro data h
    unfold detrend
    rw [if_pos h]

theorem detrend_affine_zero_witness :
    (1 < ([5, 7, 9] : List ℚ).length ∧
      detrend ([5, 7, 9] : List ℚ) = List.replicate 3 0) ∧
    detrend ([4] : List ℚ) = [4] :=
  ⟨⟨by decide,
    detrend_affine_zero.1 [5, 7, 9] 2 5 (by decide)
      (by
        intro i hi
        have hi3 : i < 3 := by simpa using hi
        interval_cases i <;> norm_num [List.getD])⟩,
   detrend_affine_zero.2 [4] (by decide)⟩

/-- C6: every filter stage preserves sequence length, and hence the full
pipeline (moving average window 5, detrend, band-pass 10/3, normalize)
returns a sequence of exactly the buffer's length, so peak indices map
directly back to buffer timestamps. -/
theorem filter_pipeline_preserves_length :
    (∀ (data : List ℚ) (w : ℕ), (movingAverage data w).length = data.length) ∧
    (∀ data : List ℚ, (detrend data).length = data.length) ∧
    (∀ (data : List ℚ) (lo hi : ℕ), (bandpassFilter data lo hi).length = data.length) ∧
    (∀ (sqrt : ℚ → ℚ) (data : List ℚ), (normalize sqrt data).length = data.length) ∧
    (∀ (sqrt : ℚ → ℚ) (buffer : List ℚ),
      (HeartbeatDetector.processSignal sqrt buffer).length = buffer.length) :=
  ⟨movingAverage_length, detrend_length, bandpassFilter_length, normalize_length,
    HeartbeatDetector.processSignal_length⟩

/-- C8: after `reset` from any state, `getBPM` returns the absent value and
the buffer length is 0, while the registered beat-callback slot is exactly
what it was before the call. -/
theorem reset_spec (κ : Type) (st : DetectorState κ) :
    HeartbeatDetector.getBPM (HeartbeatDetector.reset st) = none ∧
    (HeartbeatDetector.reset st).frameBuffer.length = 0 ∧
    (HeartbeatDetector.reset st).timestamps.length = 0 ∧
    (HeartbeatDetector.reset st).onPeakDetectedCallback = st.onPeakDetectedCallback :=
  ⟨rfl, rfl, rfl, rfl⟩

namespace HeartbeatDetector

/-- Refinement target written from the spec wording for `calculateBPM`:
the consecutive inter-peak time differences of the original buffer
timestamps at the peak indices, keeping only the strictly positive ones. -/
def specInterPeakDiffs (timestamps : List ℤ) (peaks : List ℕ) : List ℤ :=
  ((peaks.zip peaks.tail).map fun p => timestamps.getD p.2 0 - timestamps.getD p.1 0).filter
    fun d => decide (0 < d)

theorem peakTimeDiffs_eq_spec (timestamps : List ℤ) :
    ∀ peaks, peakTimeDiffs timestamps peaks = specInterPeakDiffs timestamps peaks := by
  intro peaks
  induction peaks with
  | nil => rfl
  | cons p0 rest ih =>
    cases rest with
    | nil => rfl
    | cons p1 rest2 =>
      rw [peakTimeDiffs, ih]
      unfold specInterPeakDiffs
      simp only [List.tail_cons, List.zip_cons_cons, List.map_cons, List.filter_cons]
      by_cases hpos : (0 : ℤ) < timestamps.getD p1 0 - timestamps.getD p0 0
      · rw [if_pos hpos, if_pos (by simpa using hpos)]
        rfl
      · rw [if_neg hpos, if_neg (by simpa using hpos)]
        rfl

theorem manageBufferSize_drop (t : ℤ) :
    ∀ (ts : List ℤ) (buf : List ℚ), ∃ k, k ≤ ts.length ∧
      manageBufferSize t buf ts = (buf.drop k, ts.drop k) ∧
      (∀ j, j < k → maxBufferTimeMs < t - ts.getD j 0) ∧
      (k < ts.length → t - ts.getD k 0 ≤ maxBufferTimeMs) := by
  intro ts
  induction ts with
  | nil =>
    intro buf
    exact ⟨0, by simp, by simp [manageBufferSize], by omega, by simp⟩
  | cons t0 rest ih =>
    intro buf
    by_cases hstale : maxBufferTimeMs < t - t0
    · obtain ⟨k, hk, heq, hall, hstop⟩ := ih buf.tail
      refine ⟨k + 1, by simpa using hk, ?_, ?_, ?_⟩
      · rw [manageBufferSize, if_pos hstale, heq, List.drop_succ_cons,
          ← List.drop_one buf, List.drop_drop, Nat.add_comm 1 k]
      · intro j hj
        cases j with
        | zero => simpa using hstale
        | succ j' =>
          rw [List.getD_cons_succ]
          exact hall j' (by omega)
      · intro hlt
        rw [List.getD_cons_succ]
        exact hstop (by simpa using hlt)
    · refine ⟨0, by simp, ?_, by omega, ?_⟩
      · rw [manageBufferSize, if_neg hstale]
        simp
      · intro _
        rw [List.getD_cons_zero]
        exact le_of_not_lt hstale

theorem manageBufferSize_fresh (t : ℤ) :
    ∀ (ts : List ℤ) (buf : List ℚ), List.Chain' (· ≤ ·) ts →
      ∀ s ∈ (manageBufferSize t buf ts).2, t - s ≤ maxBufferTimeMs := by
  intro ts
  induction ts with
  | nil =>
    intro buf _ s hs
    simp [manageBufferSize] at hs
  | cons t0 rest ih =>
    intro buf hchain s hs
    by_cases hstale : maxBufferTimeMs < t - t0
    · rw [manageBufferSize, if_pos hstale] at hs
      exact ih buf.tail (by simpa using hchain.tail) s hs
    · rw [manageBufferSize, if_neg hstale] at hs
      simp only at hs
      have hpw := (List.chain'_iff_pairwise.mp hchain)
      obtain ⟨hrel, -⟩ := List.pairwise_cons.mp hpw
      rcases List.mem_cons.mp hs with hs0 | hsr
      · subst hs0
        exact le_of_not_lt hstale
      · have h1 : t0 ≤ s := hrel s hsr
        have h2 : t - t0 ≤ maxBufferTimeMs := le_of_not_lt hstale
        omega

theorem manageBufferSize_fst_length_le (t : ℤ) :
    ∀ (ts : List ℤ) (buf : List ℚ), (manageBufferSize t buf ts).1.length ≤ buf.length := by
  intro ts
  induction ts with
  | nil => intro buf; simp [manageBufferSize]
  | cons t0 rest ih =>
    intro buf
    rw [manageBufferSize]
    split
    · calc (manageBufferSize t buf.tail rest).1.length
          ≤ buf.tail.length := ih buf.tail
        _ ≤ buf.length := by rw [List.length_tail]; omega
    · simp

theorem processBufferedData_fields (sqrt : ℚ → ℚ) (st : DetectorState κ) :
    (processBufferedData sqrt st).1.frameBuffer = st.frameBuffer ∧
    (processBufferedData sqrt st).1.timestamps = st.timestamps ∧
    (processBufferedData sqrt st).1.onPeakDetectedCallback = st.onPeakDetectedCallback := by
  unfold processBufferedData
  generalize processSignal sqrt st.frameBuffer = ps
  generalize findPeaks ps none (some minPeakDistance) = peaks
  generalize calculateBPM st.timestamps peaks = bpm
  split
  · exact ⟨rfl, rfl, rfl⟩
  · simp only []
    split
    · split <;> split <;> exact ⟨rfl, rfl, rfl⟩
    · exact ⟨rfl, rfl, rfl⟩

theorem processBufferedData_sticky (sqrt : ℚ → ℚ) (st : DetectorState κ) :
    (processBufferedData sqrt st).1.lastBpm = st.lastBpm ∨
    ∃ b, (processBufferedData sqrt st).1.lastBpm = some b ∧
      minValidBpm ≤ b ∧ b ≤ maxValidBpm := by
  unfold processBufferedData
  generalize processSignal sqrt st.frameBuffer = ps
  generalize findPeaks ps none (some minPeakDistance) = peaks
  generalize calculateBPM st.timestamps peaks = bpm
  split
  · left; rfl
  · simp only []
    split
    · split
      · split
        · rename_i hvalid
          right
          refine ⟨_, rfl, ?_⟩
          simpa [isValidBpm] using hvalid
        · left; rfl
      · split
        · rename_i hvalid
          right
          refine ⟨_, rfl, ?_⟩
          simpa [isValidBpm] using hvalid
        · left; rfl
    · left; rfl

theorem isValidBpm_zero : isValidBpm 0 = false := by
  have h : ¬ (minValidBpm ≤ (0 : ℚ)) := by norm_num [minValidBpm]
  simp [isValidBpm, h]

theorem processBufferedData_no_update (sqrt : ℚ → ℚ) (st : DetectorState κ) :
    (st.frameBuffer.length < minFramesRequired →
      (processBufferedData sqrt st).1.lastBpm = st.lastBpm) ∧
    ((findPeaks (processSignal sqrt st.frameBuffer) none (some minPeakDistance)).length < 2 →
      (processBufferedData sqrt st).1.lastBpm = st.lastBpm) ∧
    (isValidBpm (calculateBPM st.timestamps
        (findPeaks (processSignal sqrt st.frameBuffer) none (some minPeakDistance))) = false →
      (processBufferedData sqrt st).1.lastBpm = st.lastBpm) := by
  unfold processBufferedData
  generalize processSignal sqrt st.frameBuffer = ps
  refine ⟨?_, ?_, ?_⟩
  · intro h
    rw [if_pos h]
  · intro h
    split
    · rfl
    · simp only []
      rw [if_neg (not_le.mpr h)]
  · intro h
    split
    · rfl
    · simp only []
      split
      · rw [h]
        simp only [Bool.false_eq_true, if_false]
        split <;> rfl
      · rfl

/-- C2: on every `processFrame` call the stored BPM either stays exactly
what it was or is overwritten by a computed value inside
`[minValidBpm, maxValidBpm]`; an insufficient buffer, fewer than 2 peaks,
an empty list of positive inter-peak differences, and a range-check
failure each leave the previous estimate (also an absent one) unchanged.
The step functions are total, so none of these conditions surfaces as an
error to the caller. -/
theorem processFrame_bpm_sticky (κ : Type) (sqrt : ℚ → ℚ) (st : DetectorState κ)
    (frameData : FrameData) (t : ℤ) :
    ((processFrame sqrt st frameData t).1.lastBpm = st.lastBpm ∨
      ∃ b, (processFrame sqrt st frameData t).1.lastBpm = some b ∧
        minValidBpm ≤ b ∧ b ≤ maxValidBpm) ∧
    (∀ st2 : DetectorState κ, st2.frameBuffer.length < minFramesRequired →
      (processBufferedData sqrt st2).1.lastBpm = st2.lastBpm) ∧
    (∀ st2 : DetectorState κ,
      (findPeaks (processSignal sqrt st2.frameBuffer) none (some minPeakDistance)).length < 2 →
      (processBufferedData sqrt st2).1.lastBpm = st2.lastBpm) ∧
    (∀ st2 : DetectorState κ,
      peakTimeDiffs st2.timestamps
          (findPeaks (processSignal sqrt st2.frameBuffer) none (some minPeakDistance)) = [] →
      (processBufferedData sqrt st2).1.lastBpm = st2.lastBpm) ∧
    (∀ st2 : DetectorState κ,
      isValidBpm (calculateBPM st2.timestamps
          (findPeaks (processSignal sqrt st2.frameBuffer) none (some minPeakDistance))) = false →
      (processBufferedData sqrt st2).1.lastBpm = st2.lastBpm) := by
  refine ⟨?_, fun st2 h => (processBufferedData_no_update sqrt st2).1 h,
    fun st2 h => (processBufferedData_no_update sqrt st2).2.1 h, ?_,
    fun st2 h => (processBufferedData_no_update sqrt st2).2.2 h⟩
  · unfold processFrame
    simp only []
    split
    · exact processBufferedData_sticky sqrt _
    · left; rfl
  · intro st2 h
    refine (processBufferedData_no_update sqrt st2).2.2 ?_
    unfold calculateBPM
    rw [h]
    simpa using isValidBpm_zero

theorem processFrame_bpm_sticky_witness :
    (initState Unit).frameBuffer.length < minFramesRequired ∧
    (processBufferedData (fun _ => 0) (initState Unit)).1.lastBpm = (initState Unit).lastBpm :=
  ⟨by decide,
   (processFrame_bpm_sticky Unit (fun _ => 0) (initState Unit)
      ⟨0, 0, fun _ => 0⟩ 0).2.1 (initState Unit) (by decide)⟩

/-- C3: whenever processing runs (buffer at or above the minimum) with at
least 2 detected peaks, the computed BPM stored on success is exactly
60000 divided by the arithmetic mean of the positive consecutive
differences of the original buffer timestamps at the peak indices;
non-positive differences are discarded, and when none remain (or the value
fails the range check) the stored estimate is not updated. -/
theorem processBufferedData_bpm_formula (κ : Type) (sqrt : ℚ → ℚ) (st : DetectorState κ) :
    (processBufferedData sqrt st).1.lastBpm =
      if st.frameBuffer.length < minFramesRequired then st.lastBpm
      else
        let peaks := findPeaks (processSignal sqrt st.frameBuffer) none (some minPeakDistance)
        if 2 ≤ peaks.length then
          let diffs := specInterPeakDiffs st.timestamps peaks
          if diffs = [] then st.lastBpm
          else
            let bpm : ℚ := 60000 / (((diffs.map fun (d : ℤ) => (d : ℚ)).sum) / (diffs.length : ℚ))
            if minValidBpm ≤ bpm ∧ bpm ≤ maxValidBpm then some bpm else st.lastBpm
        else st.lastBpm := by
  unfold processBufferedData
  generalize processSignal sqrt st.frameBuffer = ps
  simp only []
  split
  · rfl
  · split
    · have hproj : ∀ (c : Prop) (inst : Decidable c) (a : DetectorState κ) (n m : ℕ),
          (@ite _ c inst (a, n) (a, m)).1 = a := by
        intro c inst a n m
        split <;> rfl
      rw [hproj]
      unfold calculateBPM
      rw [peakTimeDiffs_eq_spec]
      by_cases hd : specInterPeakDiffs st.timestamps
          (findPeaks ps none (some minPeakDistance)) = []
      · rw [if_pos hd, hd]
        simp [isValidBpm_zero]
      · rw [if_neg hd]
        simp only []
        rw [if_neg fun hh => hd (List.length_eq_zero.mp hh)]
        by_cases hv : minValidBpm ≤
              (60000 : ℚ) / ((((specInterPeakDiffs st.timestamps
                  (findPeaks ps none (some minPeakDistance))).map fun (d : ℤ) => (d : ℚ)).sum)
                / ((specInterPeakDiffs st.timestamps
                  (findPeaks ps none (some minPeakDistance))).length : ℚ)) ∧
            (60000 : ℚ) / ((((specInterPeakDiffs st.timestamps
                  (findPeaks ps none (some minPeakDistance))).map fun (d : ℤ) => (d : ℚ)).sum)
                / ((specInterPeakDiffs st.timestamps
                  (findPeaks ps none (some minPeakDistance))).length : ℚ)) ≤ maxValidBpm
        · rw [if_pos hv, if_pos (by simpa [isValidBpm] using hv)]
        · rw [if_neg hv, if_neg (by simpa [isValidBpm] using hv)]
    · rfl

/-- Square-root stand-in used by the concrete witness computations. -/
def sqrt0 : ℚ → ℚ := fun _ => 0

/-- Trivial camera frame used by the concrete witness computations. -/
def frame0 : FrameData := ⟨0, 0, fun _ => 0⟩

/-- Detector state with a registered callback, an empty buffer and no BPM,
used by the concrete witness computations. -/
def stCb : DetectorState Unit := ⟨[], [], none, some ()⟩

/-- C4: during a single `processFrame` call the registered beat callback is
invoked at most once, and (given a registered callback) it is invoked
exactly when processing ran on a full-enough buffer, at least 2 peaks were
found, and the most recent peak index lies within 5 positions of the
buffer's end — independent of the BPM range validation. -/
theorem processFrame_beat_callback (κ : Type) (sqrt : ℚ → ℚ) (st : DetectorState κ)
    (frameData : FrameData) (t : ℤ)
    (hcb : st.onPeakDetectedCallback.isSome = true) :
    (processFrame sqrt st frameData t).2 ≤ 1 ∧
    ((processFrame sqrt st frameData t).2 = 1 ↔
      (let p := manageBufferSize t (st.frameBuffer ++ [extractRedChannelAverage frameData])
          (st.timestamps ++ [t])
       let peaks := findPeaks (processSignal sqrt p.1) none (some minPeakDistance)
       minFramesRequired ≤ p.1.length ∧ 2 ≤ peaks.length ∧
         (p.1.length : ℤ) - (peaks.getD (peaks.length - 1) 0 : ℤ) < 5)) := by
  unfold processFrame
  simp only []
  generalize manageBufferSize t (st.frameBuffer ++ [extractRedChannelAverage frameData])
    (st.timestamps ++ [t]) = p
  dsimp only
  split
  · unfold processBufferedData
    rename_i hguard
    rw [if_neg (not_lt.mpr hguard)]
    simp only []
    generalize hps : processSignal sqrt p.1 = ps
    have hlen : ps.length = p.1.length := by
      rw [← hps]
      exact processSignal_length sqrt p.1
    rw [hlen]
    simp only [List.getD_eq_getElem?_getD]
    constructor
    · split
      · split <;> simp
      · simp
    · simp only [hcb, true_and]
      split
      · rename_i h2
        split
        · rename_i hr
          simp [hguard, h2, hr]
        · rename_i hr
          simp [hguard, h2, hr]
      · rename_i h2
        simp [h2]
  · rename_i hguard
    refine ⟨by simp, ?_⟩
    simp [hguard]

theorem processFrame_beat_callback_witness :
    (processFrame sqrt0 stCb frame0 0).2 ≤ 1 ∧
    ((processFrame sqrt0 stCb frame0 0).2 = 1 ↔
      (let p := manageBufferSize 0 (stCb.frameBuffer ++ [extractRedChannelAverage frame0])
          (stCb.timestamps ++ [0])
       let peaks := findPeaks (processSignal sqrt0 p.1) none (some minPeakDistance)
       minFramesRequired ≤ p.1.length ∧ 2 ≤ peaks.length ∧
         (p.1.length : ℤ) - (peaks.getD (peaks.length - 1) 0 : ℤ) < 5)) :=
  processFrame_beat_callback Unit sqrt0 stCb frame0 0 rfl

theorem processFrame_small_buffer (sqrt : ℚ → ℚ) (st : DetectorState κ)
    (frameData : FrameData) (t : ℤ) :
    (processFrame sqrt st frameData t).1.frameBuffer.length ≤ st.frameBuffer.length + 1 ∧
    (st.frameBuffer.length + 1 < minFramesRequired →
      (processFrame sqrt st frameData t).1.lastBpm = st.lastBpm) := by
  unfold processFrame
  simp only []
  generalize hp : manageBufferSize t (st.frameBuffer ++ [extractRedChannelAverage frameData])
    (st.timestamps ++ [t]) = p
  dsimp only
  have hle : p.1.length ≤ st.frameBuffer.length + 1 := by
    rw [← hp]
    calc (manageBufferSize t (st.frameBuffer ++ [extractRedChannelAverage frameData])
          (st.timestamps ++ [t])).1.length
        ≤ (st.frameBuffer ++ [extractRedChannelAverage frameData]).length :=
          manageBufferSize_fst_length_le t _ _
      _ = st.frameBuffer.length + 1 := by simp
  constructor
  · split
    · have hf := (processBufferedData_fields sqrt
        ({ st with frameBuffer := p.1, timestamps := p.2 } : DetectorState κ)).1
      rw [hf]
      exact hle
    · exact hle
  · intro hsmall
    rw [if_neg (not_le.mpr (lt_of_le_of_lt hle hsmall))]

theorem runFrames_bpm_none (sqrt : ℚ → ℚ) :
    ∀ (inputs : List (FrameData × ℤ)) (st : DetectorState κ),
      st.lastBpm = none → st.frameBuffer.length + inputs.length < minFramesRequired →
      (runFrames sqrt st inputs).lastBpm = none := by
  intro inputs
  induction inputs with
  | nil =>
    intro st h _
    simpa [runFrames] using h
  | cons x xs ih =>
    intro st hbpm hlen
    have hunf : runFrames sqrt st (x :: xs)
        = runFrames sqrt ((processFrame sqrt st x.1 x.2).1) xs := by
      rw [runFrames, runFrames, List.foldl_cons]
    rw [hunf]
    have hstep := processFrame_small_buffer sqrt st x.1 x.2
    have hxs : xs.length + 1 = (x :: xs).length := by simp
    refine ih _ ?_ ?_
    · rw [hstep.2 (by omega)]
      exact hbpm
    · have h1 := hstep.1
      omega

/-- C5: fewer than `minFramesRequired` `processFrame` calls on a freshly
created detector (arbitrary frames, timestamps, and callback registration)
leave `getBPM` at its initial absent value, because the buffer never
reaches the 100-sample minimum that gates the pipeline; since every prefix
of such a call sequence is also shorter than the minimum, the estimate is
absent after every single one of the calls. -/
theorem runFrames_fresh_bpm_absent (κ : Type) (sqrt : ℚ → ℚ) (cb : Option κ)
    (inputs : List (FrameData × ℤ)) (h : inputs.length < minFramesRequired) :
    getBPM (runFrames sqrt ⟨[], [], none, cb⟩ inputs) = none :=
  runFrames_bpm_none sqrt inputs ⟨[], [], none, cb⟩ rfl (by simpa using h)

theorem runFrames_fresh_bpm_absent_witness :
    [(frame0, (0 : ℤ))].length < minFramesRequired ∧
    getBPM (runFrames sqrt0 ⟨[], [], none, (none : Option Unit)⟩ [(frame0, 0)]) = none :=
  ⟨by decide, runFrames_fresh_bpm_absent Unit sqrt0 none [(frame0, 0)] (by decide)⟩

/-- C7: eviction pops pairs only from the front — `manageBufferSize`
returns a common-length drop of both sequences, removing exactly the
leading timestamps more than `maxBufferTimeMs` behind the reference and
stopping at the first fresh one; it runs once per append anchored at the
appended timestamp, so under non-decreasing timestamps every sample
retained after `processFrame` is at most `maxBufferTimeMs` behind the
reference. -/
theorem eviction_window (κ : Type) (sqrt : ℚ → ℚ) (st : DetectorState κ)
    (frameData : FrameData) (t : ℤ) :
    (∀ (ts : List ℤ) (buf : List ℚ), ∃ k, k ≤ ts.length ∧
      manageBufferSize t buf ts = (buf.drop k, ts.drop k) ∧
      (∀ j, j < k → maxBufferTimeMs < t - ts.getD j 0) ∧
      (k < ts.length → t - ts.getD k 0 ≤ maxBufferTimeMs)) ∧
    (List.Chain' (· ≤ ·) st.timestamps → (∀ s ∈ st.timestamps, s ≤ t) →
      ∀ s ∈ (processFrame sqrt st frameData t).1.timestamps, t - s ≤ maxBufferTimeMs) := by
  refine ⟨manageBufferSize_drop t, ?_⟩
  intro hchain hle s hs
  have hts : (processFrame sqrt st frameData t).1.timestamps
      = (manageBufferSize t (st.frameBuffer ++ [extractRedChannelAverage frameData])
          (st.timestamps ++ [t])).2 := by
    unfold processFrame
    simp only []
    split
    · exact (processBufferedData_fields sqrt _).2.1
    · rfl
  rw [hts] at hs
  refine manageBufferSize_fresh t (st.timestamps ++ [t]) _ ?_ s hs
  rw [List.chain'_append]
  refine ⟨hchain, List.chain'_singleton t, ?_⟩
  intro x hx y hy
  simp at hy
  subst hy
  exact hle x (List.mem_of_mem_getLast? hx)

theorem eviction_window_witness :
    List.Chain' (· ≤ ·) stCb.timestamps ∧ (∀ s ∈ stCb.timestamps, s ≤ 20000) ∧
    (∀ s ∈ (processFrame sqrt0 stCb frame0 20000).1.timestamps,
      20000 - s ≤ maxBufferTimeMs) :=
  ⟨List.chain'_nil, by simp [stCb],
   (eviction_window Unit sqrt0 stCb frame0 20000).2 List.chain'_nil (by simp [stCb])⟩

end HeartbeatDetector

end ExpoHeartbeat
